import Mathlib

/-!
Verification development for the documentation-symbol extractor of
`bot/cogs/doc/parsing.py`: a shallow embedding of the module's data model and
functions, followed by theorems settling the specification's claims about it.

The HTML tree is embedded as a plain inductive (`Node`), locations in a tree as
child-index paths, and the BeautifulSoup traversals used by the source
(`find(id=...)`, `find_next`, `find_next_siblings`, `find_previous_siblings`,
`find_all(recursive=False)`) as functions over the preorder flattening of the
tree.  The raised `AttributeError` of an unguarded `None` lookup is embedded by
an `Option` result.  Python strings are embedded as Lean `String`s (both count
code points).
-/

/-- An HTML node as BeautifulSoup presents it: a `Tag`, carrying its name, its
optional `id` attribute, its multi-valued `class` attribute and its children,
or a `NavigableString` holding raw text. -/
inductive Node where
  | tag (name : String) (idAttr : Option String) (classes : List String) (children : List Node)
  | text (s : String)

/-- `Tag.name`; a `NavigableString` has no name (the source never asks for one). -/
def Node.name : Node → String
  | .tag nm _ _ _ => nm
  | .text _ => ""

/-- The `id` attribute of a tag; a string node carries none. -/
def Node.idAttr : Node → Option String
  | .tag _ i _ _ => i
  | .text _ => none

/-- `tag.get("class", ())`: the multi-valued class attribute, empty for strings. -/
def Node.classes : Node → List String
  | .tag _ _ cl _ => cl
  | .text _ => []

/-- `isinstance(element, Tag)`. -/
def Node.isTag : Node → Bool
  | .tag _ _ _ _ => true
  | .text _ => false

/-- The direct children of an element (a string has none). -/
def Node.childNodes : Node → List Node
  | .tag _ _ _ cs => cs
  | .text _ => []

mutual

/-- `element.text`: the concatenation of all descendant strings in document
order (for a `NavigableString`, the string itself). -/
def Node.getText : Node → String
  | .text s => s
  | .tag _ _ _ cs => nodesText cs

/-- Concatenated text of a list of nodes, in order. -/
def nodesText : List Node → String
  | [] => ""
  | c :: cs => c.getText ++ nodesText cs

end

mutual

/-- The preorder flattening of a subtree: every node paired with its
child-index path, the subtree's root (at path `p`) first, exactly the order in
which BeautifulSoup's `next_elements` visits nodes. -/
def preorder : List Nat → Node → List (List Nat × Node)
  | p, .text s => [(p, .text s)]
  | p, .tag nm i cl cs => (p, .tag nm i cl cs) :: preorderList p 0 cs

/-- Preorder flattening of the children `cs` of the node at path `p`, the
first child having index `i`. -/
def preorderList : List Nat → Nat → List Node → List (List Nat × Node)
  | _, _, [] => []
  | p, i, c :: cs => preorder (p ++ [i]) c ++ preorderList p (i + 1) cs

end

/-- All nodes of the document in document order, the root first. -/
def docOrder (root : Node) : List (List Nat × Node) := preorder [] root

/-- `soup.find(id=symbol_id)`: the first descendant tag whose `id` attribute
equals the requested id, in document order (the root itself is not searched,
matching BeautifulSoup's `find`, which searches descendants). -/
def findById (root : Node) (i : String) : Option (List Nat × Node) :=
  ((docOrder root).drop 1).find? (fun pn => pn.2.idAttr == some i)

/-- The nodes strictly after the node at path `p` in document order
(BeautifulSoup's `next_elements`: the node's own descendants first, then
everything after it). -/
def nodesAfter (root : Node) (p : List Nat) : List (List Nat × Node) :=
  ((docOrder root).dropWhile (fun pn => pn.1 != p)).drop 1

/-- `element.find_next(...)`: the first tag after `p` in document order
satisfying `q` (a `find_next` with a name or attribute filter only ever
matches tags, never strings). -/
def findNext (root : Node) (p : List Nat) (q : Node → Bool) : Option (List Nat × Node) :=
  (nodesAfter root p).find? (fun pn => pn.2.isTag && q pn.2)

/-- The node at path `p`, if the path is valid. -/
def getNodeAt (root : Node) (p : List Nat) : Option Node :=
  ((docOrder root).find? (fun pn => pn.1 == p)).map (fun pn => pn.2)

/-- `element.next_siblings` as a list: the parent's children after `p`'s index. -/
def nextSiblingNodes (root : Node) (p : List Nat) : List Node :=
  match p.getLast?, getNodeAt root p.dropLast with
  | some i, some parent => parent.childNodes.drop (i + 1)
  | _, _ => []

/-- `element.previous_siblings` as a list: the parent's children before `p`'s
index, nearest sibling first. -/
def previousSiblingNodes (root : Node) (p : List Nat) : List Node :=
  match p.getLast?, getNodeAt root p.dropLast with
  | some i, some parent => (parent.childNodes.take i).reverse
  | _, _ => []

/-- Modelled from the spec: the repository's `Strainer` (`bot/cogs/doc/html.py`,
which is not among the given source files).  Per spec §4.1, when
`include_strings` is true raw text nodes are included alongside element nodes,
otherwise only element nodes are considered. -/
def strainNodes (include_strings : Bool) (nodes : List Node) : List Node :=
  if include_strings then nodes else nodes.filter Node.isTag

/-- BeautifulSoup's `limit=` argument: `none` means unbounded. -/
def takeLimit : Option Nat → List Node → List Node
  | none, l => l
  | some n, l => l.take n

/-- The duck-typed `tag_filter` argument of `_find_elements_until_tag`: either
a tuple of tag names or a filtering callable applied to tags. -/
inductive TagFilter where
  | names (ns : List String)
  | pred (f : Node → Bool)

/-- How `_find_elements_until_tag` applies the filter to a tag: a tuple filter
tests `element.name in tag_filter`, a callable is applied to the element. -/
def tagFilterHit : TagFilter → Node → Bool
  | .names ns, element => ns.contains element.name
  | .pred f, element => f element

/-- `_find_elements_until_tag`, its iteration source already fixed: walk the
candidate nodes in order, and on the first element node hit by `tag_filter`
stop before including it; string candidates are appended without being tested
against the filter. -/
def _find_elements_until_tag (tag_filter : TagFilter) : List Node → List Node
  | [] => []
  | element :: rest =>
    if element.isTag then
      if tagFilterHit tag_filter element then []
      else element :: _find_elements_until_tag tag_filter rest
    else element :: _find_elements_until_tag tag_filter rest

/-- `_find_next_siblings_until_tag`: candidates are the forward siblings of the
node at `p`, strained and capped by `limit`. -/
def _find_next_siblings_until_tag (root : Node) (p : List Nat) (tag_filter : TagFilter)
    (include_strings : Bool) (limit : Option Nat) : List Node :=
  _find_elements_until_tag tag_filter
    (takeLimit limit (strainNodes include_strings (nextSiblingNodes root p)))

/-- `_find_previous_siblings_until_tag`: candidates are the backward siblings
of the node at `p`, nearest first, strained and capped by `limit`. -/
def _find_previous_siblings_until_tag (root : Node) (p : List Nat) (tag_filter : TagFilter)
    (include_strings : Bool) (limit : Option Nat) : List Node :=
  _find_elements_until_tag tag_filter
    (takeLimit limit (strainNodes include_strings (previousSiblingNodes root p)))

/-- `_find_next_children_until_tag`: candidates are the direct children
(`find_all(recursive=False)`) of the node at `p`. -/
def _find_next_children_until_tag (root : Node) (p : List Nat) (tag_filter : TagFilter)
    (include_strings : Bool) (limit : Option Nat) : List Node :=
  _find_elements_until_tag tag_filter
    (takeLimit limit (strainNodes include_strings (Node.childNodes ((getNodeAt root p).getD (.text "")))))

/-- `_SEARCH_END_TAG_ATTRS`. -/
def _SEARCH_END_TAG_ATTRS : List String :=
  ["data", "function", "class", "exception", "seealso", "section", "rubric", "sphinxsidebar"]

/-- `_NO_SIGNATURE_GROUPS`, verbatim from the source (including the source's
spelling of its fourth member). -/
def _NO_SIGNATURE_GROUPS : List String :=
  ["attribute", "envvar", "setting", "tempaltefilter", "templatetag", "term"]

/-- `_MAX_DESCRIPTION_LENGTH`. -/
def _MAX_DESCRIPTION_LENGTH : Nat := 1800

/-- Python's `string.whitespace`: space, tab, linefeed, return, vertical tab,
formfeed. -/
def pythonWhitespace : List Char := [' ', '\t', '\n', '\r', '\x0b', '\x0c']

/-- `_TRUNCATE_STRIP_CHARACTERS = "!?:;." + string.whitespace`. -/
def _TRUNCATE_STRIP_CHARACTERS : List Char :=
  ['!', '?', ':', ';', '.'] ++ pythonWhitespace

/-- `_match_end_tag`: true when one of `_SEARCH_END_TAG_ATTRS` occurs in the
tag's class value, or the tag is a table. -/
def _match_end_tag (tag : Node) : Bool :=
  _SEARCH_END_TAG_ATTRS.any (fun attr => tag.classes.contains attr) || tag.name == "table"

/-- The `start_tag` computation of `_get_general_description`: look for a
headerlink `a` tag forward of the start element; when found, its parent (the
path with the last index dropped) becomes the element the forward-sibling scan
starts from. -/
def generalStartPath (root : Node) (start_element : List Nat) : List Nat :=
  match findNext root start_element
      (fun n => n.name == "a" && n.classes.contains "headerlink") with
  | some hp => hp.1.dropLast
  | none => start_element

/-- `_get_general_description`: from the effective start element, take forward
siblings, strings included, until `_match_end_tag` hits. -/
def _get_general_description (root : Node) (start_element : List Nat) : List Node :=
  _find_next_siblings_until_tag root (generalStartPath root start_element)
    (.pred _match_end_tag) true none

/-- `_get_dd_description`: the direct children of the next `dd` tag, strings
included, up to a `dt` or `dl` child.  `none` embeds the `AttributeError`
raised when no `dd` follows the symbol (`description_tag` is `None` and
`find_all` is called on it). -/
def _get_dd_description (root : Node) (symbol : List Nat) : Option (List Node) :=
  match findNext root symbol (fun n => n.name == "dd") with
  | some dp => some (_find_next_children_until_tag root dp.1 (.names ["dt", "dl"]) true none)
  | none => none

/-- `_UNWANTED_SIGNATURE_SYMBOLS_RE.sub("", ·)` on the character list: the
regex `\[source]|\\\\|¶` removes every occurrence of the literal `[source]`,
of two consecutive backslashes, and of a pilcrow, scanning left to right with
the alternatives tried in that order. -/
def stripUnwantedSignatureSymbols : List Char → List Char
  | '[' :: 's' :: 'o' :: 'u' :: 'r' :: 'c' :: 'e' :: ']' :: rest =>
      stripUnwantedSignatureSymbols rest
  | '\\' :: '\\' :: rest => stripUnwantedSignatureSymbols rest
  | '¶' :: rest => stripUnwantedSignatureSymbols rest
  | c :: rest => c :: stripUnwantedSignatureSymbols rest
  | [] => []

/-- String form of `_UNWANTED_SIGNATURE_SYMBOLS_RE.sub("", ·)`. -/
def subSignatureSymbols (s : String) : String :=
  ⟨stripUnwantedSignatureSymbols s.data⟩

/-- The collection loop of `_get_signatures`: clean each element's text and
keep it when non-empty. -/
def collectSignatures : List Node → List String
  | [] => []
  | element :: rest =>
    let signature := subSignatureSymbols element.getText
    if signature == "" then collectSignatures rest
    else signature :: collectSignatures rest

/-- `_get_signatures`: up to 2 previous siblings (nearest first, reversed back
into document order, stopping at a `dd`), the start signature itself, up to 2
following siblings (stopping at a `dd`); of that tuple only the last 3 entries
(Python `[-3:]`) are kept, cleaned, and dropped when empty. -/
def _get_signatures (root : Node) (start_signature : List Nat) : List String :=
  let anchor := (getNodeAt root start_signature).getD (.text "")
  let around :=
    (_find_previous_siblings_until_tag root start_signature (.names ["dd"]) false (some 2)).reverse
      ++ [anchor]
      ++ _find_next_siblings_until_tag root start_signature (.names ["dd"]) false (some 2)
  collectSignatures (around.drop (around.length - 3))

/-- The converter interface `_get_truncated_description` consumes: the
`process_tag` / `process_text` methods of a markdown converter object. -/
structure MarkdownConverter where
  process_tag : Node → String
  process_text : String → String

/-- `len(element.text) if is_tag else len(element)`: a `NavigableString`'s
`len` is its character count. -/
def nodeSourceLength : Node → Nat
  | .text s => s.length
  | element => element.getText.length

/-- The conversion step of the truncation loop: `process_tag` for tags,
`process_text` for strings. -/
def convertNode (conv : MarkdownConverter) : Node → String
  | .text s => conv.process_text s
  | element => conv.process_tag element

/-- The loop of `_get_truncated_description`, carrying `visual_length` and
`real_length`: returns the converted chunks appended to `result` and the
`shortened` flag. -/
def truncateLoop (conv : MarkdownConverter) (max_length : Nat) :
    List Node → Nat → Nat → List String × Bool
  | [], _, _ => ([], false)
  | element :: rest, visual_length, real_length =>
    let element_length := nodeSourceLength element
    if visual_length + element_length < max_length then
      let element_markdown := convertNode conv element
      if real_length + element_markdown.length < _MAX_DESCRIPTION_LENGTH then
        let next := truncateLoop conv max_length rest (visual_length + element_length)
          (real_length + element_markdown.length)
        (element_markdown :: next.1, next.2)
      else ([], true)
    else ([], true)

/-- Python `str.rstrip(chars)`: drop trailing characters belonging to `cs`. -/
def rstripChars (s : String) (cs : List Char) : String :=
  ⟨(s.data.reverse.dropWhile (fun c => cs.contains c)).reverse⟩

/-- `_get_truncated_description`: run the loop from zero counters, join the
kept chunks, and when the loop broke early strip trailing
`_TRUNCATE_STRIP_CHARACTERS` and append `"..."`. -/
def _get_truncated_description (elements : List Node) (markdown_converter : MarkdownConverter)
    (max_length : Nat) : String :=
  let r := truncateLoop markdown_converter max_length elements 0 0
  let markdown_string := String.join r.1
  if r.2 then rstripChars markdown_string _TRUNCATE_STRIP_CHARACTERS ++ "..." else markdown_string

/-- Whether a character is in the whitespace class the source's regexes use
(the ASCII part of Python's `\s`, which is all the source's strings contain). -/
def isPySpace (c : Char) : Bool := pythonWhitespace.contains c

/-- The scan of `_WHITESPACE_AFTER_NEWLINES_RE.sub("", ·)`: `a` and `b` are
the two original characters before the current one, `dropping` records that a
matched whitespace run is being consumed; a run starts at a whitespace
character preceded by two newlines and is consumed greedily. -/
def stripWsAfterNewlinesAux (dropping : Bool) (a b : Char) : List Char → List Char
  | [] => []
  | c :: cs =>
    if isPySpace c && (dropping || (a == '\n' && b == '\n')) then
      stripWsAfterNewlinesAux true b c cs
    else
      c :: stripWsAfterNewlinesAux false b c cs

/-- `_WHITESPACE_AFTER_NEWLINES_RE.sub("", s)`: remove every whitespace run
that immediately follows a double newline. -/
def stripWhitespaceAfterNewlines (s : String) : String :=
  ⟨stripWsAfterNewlinesAux false 'A' 'A' s.data⟩

/-- The word splitter of Python's `str.split()` (no separator): maximal runs
of non-whitespace characters; `cur` accumulates the current word reversed. -/
def splitWsAux (cur : List Char) : List Char → List (List Char)
  | [] => if cur.isEmpty then [] else [cur.reverse]
  | c :: cs =>
    if isPySpace c then
      if cur.isEmpty then splitWsAux [] cs else cur.reverse :: splitWsAux [] cs
    else splitWsAux (c :: cur) cs

/-- `s.split()` as Python's `textwrap.shorten` first applies it. -/
def pySplitWords (s : String) : List String :=
  (splitWsAux [] s.data).map (fun l => ⟨l⟩)

/-- Words joined by single spaces, `" ".join(...)`. -/
def joinWithSpaces : List String → String
  | [] => ""
  | [w] => w
  | w :: ws => w ++ " " ++ joinWithSpaces ws

/-- The greedy word-prefix of the truncation branch of `textwrap.shorten`:
keep words while the space-joined length stays within `budget`. -/
def fitWordsAux (budget : Nat) (cur : Nat) : List String → List String
  | [] => []
  | w :: ws =>
    let newLen := if cur == 0 then w.length else cur + 1 + w.length
    if newLen ≤ budget then w :: fitWordsAux budget newLen ws else []

/-- Modelled from Python's standard-library `textwrap.shorten(text, width)` as
the source calls it: whitespace is always collapsed (`" ".join(text.split())`);
a collapsed text that fits within `width` is returned unchanged; otherwise a
maximal word prefix is kept so that the default placeholder `" [...]"` still
fits, the placeholder alone standing in when no word fits. -/
def textwrap_shorten (s : String) (width : Nat) : String :=
  if (joinWithSpaces (pySplitWords s)).length ≤ width then joinWithSpaces (pySplitWords s)
  else if (fitWordsAux (width - " [...]".length) 0 (pySplitWords s)).isEmpty then "[...]"
  else joinWithSpaces (fitWordsAux (width - " [...]".length) 0 (pySplitWords s)) ++ " [...]"

/-- Modelled from the spec: `DocMarkdownConverter` (`bot/cogs/doc/markdown.py`,
which is not among the given source files).  The spec's converter (§4.4) maps
an element or text subtree to markdown text; it is embedded here as the
plain-text degradation the spec itself mandates for conversion gaps (§7): a
tag renders as its text content, a raw string as itself. -/
def DocMarkdownConverter (_bullets _page_url : String) : MarkdownConverter :=
  { process_tag := fun element => element.getText
    process_text := fun s => s }

/-- `str.replace("¶", "")`, the final pilcrow strip of `get_symbol_markdown`. -/
def removePilcrows (s : String) : String :=
  ⟨s.data.filter (fun c => c != '¶')⟩

/-- `_parse_into_markdown`: truncate the description to a visual budget of 750
under a `DocMarkdownConverter` with bullet `•` and the symbol's page URL, strip
whitespace after paragraph breaks, and prepend one ```` ```py ```` fenced block
per signature (each shortened to 500 characters), separated from the
description by a newline. -/
def _parse_into_markdown (signatures : Option (List String)) (description : List Node)
    (url : String) : String :=
  let description_md := _get_truncated_description description (DocMarkdownConverter "•" url) 750
  let description_md := stripWhitespaceAfterNewlines description_md
  let formatted_markdown :=
    match signatures with
    | some sigs =>
        String.join (sigs.map (fun signature => "```py\n" ++ textwrap_shorten signature 500 ++ "```"))
    | none => ""
  formatted_markdown ++ "\n" ++ description_md

/-- The resolved symbol descriptor handed to `get_symbol_markdown`
(the `DocItem` fields the function reads). -/
structure DocItem where
  symbol_id : String
  group : String
  url : String

/-- `get_symbol_markdown`: resolve the symbol id, pick the parsing strategy by
group and anchor tag, and assemble the markdown.  `none` embeds an escaping
exception (the unguarded `dd` lookup of `_get_dd_description`). -/
def get_symbol_markdown (soup : Node) (symbol_data : DocItem) : Option String :=
  match findById soup symbol_data.symbol_id with
  | none => some "Unable to parse the requested symbol."
  | some ph =>
    if ["module", "doc", "label"].contains symbol_data.group then
      some (removePilcrows (_parse_into_markdown none (_get_general_description soup ph.1)
        symbol_data.url))
    else if ph.2.name != "dt" then
      some (removePilcrows (_parse_into_markdown none (_get_general_description soup ph.1)
        symbol_data.url))
    else if _NO_SIGNATURE_GROUPS.contains symbol_data.group then
      match _get_dd_description soup ph.1 with
      | none => none
      | some description =>
        some (removePilcrows (_parse_into_markdown none description symbol_data.url))
    else
      match _get_dd_description soup ph.1 with
      | none => none
      | some description =>
        some (removePilcrows (_parse_into_markdown (some (_get_signatures soup ph.1)) description
          symbol_data.url))

/-! ## General lemmas about the boundary scanner -/

/-- The scan of `_find_elements_until_tag` keeps exactly the longest prefix of
its candidates on which no element node is hit by the filter: the matching
element, and everything after it, is excluded, and string nodes pass through
untested. -/
theorem find_elements_eq_takeWhile (f : TagFilter) (l : List Node) :
    _find_elements_until_tag f l =
      l.takeWhile (fun n => !(n.isTag && tagFilterHit f n)) := by
  induction l with
  | nil => rfl
  | cons n rest ih =>
    simp only [_find_elements_until_tag, List.takeWhile]
    cases hn : n.isTag <;> cases hh : tagFilterHit f n <;>
      simp [hn, hh, ih]

/-- C7: For every start element, tag filter, and limit N, the boundary scanner
`_find_elements_until_tag` inspects at most N candidate nodes even when the
stop condition is never met; its result never contains the element that
satisfied the tag filter nor any node after it (it is exactly the longest
hit-free prefix of the capped candidates); and non-element text nodes are never
tested against the filter (two callables agreeing on element nodes give the
same result). -/
theorem boundary_scanner_limit_and_stop (tag_filter : TagFilter) (candidates : List Node)
    (N : Nat) :
    (_find_elements_until_tag tag_filter (takeLimit (some N) candidates)).length ≤ N ∧
    _find_elements_until_tag tag_filter (takeLimit (some N) candidates) =
      (candidates.take N).takeWhile (fun n => !(n.isTag && tagFilterHit tag_filter n)) ∧
    (∀ n ∈ _find_elements_until_tag tag_filter (takeLimit (some N) candidates),
      n.isTag = true → tagFilterHit tag_filter n = false) ∧
    (∀ f g : Node → Bool, (∀ n : Node, n.isTag = true → f n = g n) →
      _find_elements_until_tag (.pred f) candidates =
        _find_elements_until_tag (.pred g) candidates) := by
  refine ⟨?_, ?_, ?_, ?_⟩
  · rw [show takeLimit (some N) candidates = candidates.take N from rfl,
      find_elements_eq_takeWhile]
    calc ((candidates.take N).takeWhile _).length ≤ (candidates.take N).length :=
          List.Sublist.length_le (List.takeWhile_sublist _)
      _ ≤ N := by simp
  · exact find_elements_eq_takeWhile _ _
  · intro n hn htag
    rw [show takeLimit (some N) candidates = candidates.take N from rfl,
      find_elements_eq_takeWhile] at hn
    have := List.mem_takeWhile_imp hn
    simpa [htag] using this
  · intro f g hfg
    induction candidates with
    | nil => rfl
    | cons n rest ih =>
      simp only [_find_elements_until_tag]
      cases hn : n.isTag
      · simp [hn, ih]
      · have h2 : tagFilterHit (.pred f) n = tagFilterHit (.pred g) n := hfg n hn
        rw [ih, h2]

/-- C2: when no element of the tree carries the descriptor's id,
`get_symbol_markdown` returns exactly the fixed not-found message and nothing
is raised (the embedded result is `some` of the message). -/
theorem missing_id_yields_fixed_message (soup : Node) (symbol_data : DocItem)
    (h : ∀ pn ∈ docOrder soup, pn.2.idAttr ≠ some symbol_data.symbol_id) :
    get_symbol_markdown soup symbol_data = some "Unable to parse the requested symbol." := by
  have hnone : findById soup symbol_data.symbol_id = none := by
    unfold findById
    rw [List.find?_eq_none]
    intro pn hpn
    have := h pn (List.mem_of_mem_drop hpn)
    simpa using this
  unfold get_symbol_markdown
  rw [hnone]

/-- Concrete instance for C2: a one-text document and a descriptor whose id
is absent. -/
theorem missing_id_yields_fixed_message_witness :
    (∀ pn ∈ docOrder (Node.tag "root" none [] [Node.text "x"]),
      pn.2.idAttr ≠ some "missing") ∧
    get_symbol_markdown (Node.tag "root" none [] [Node.text "x"])
        ⟨"missing", "function", "u"⟩ =
      some "Unable to parse the requested symbol." :=
  ⟨by decide, missing_id_yields_fixed_message _ _ (by decide)⟩

/-- A document whose descriptor id resolves to a `dt` anchor of a
description-list body group, but with no `dd` element anywhere after the
anchor. -/
def docWithoutDd : Node :=
  .tag "root" none [] [.tag "dl" none [] [.tag "dt" (some "foo.bar") [] [.text "sig"]]]

/-- C9: on `docWithoutDd` the id is found and the anchor is a `dt`, yet
`get_symbol_markdown` produces no string for either a signature group
(`"function"`) or a no-signature group (`"term"`): the `find_next("dd")`
lookup of `_get_dd_description` comes back empty and the unguarded use of it
escapes as an exception (embedded as `none`). -/
theorem missing_dd_raises :
    (findById docWithoutDd "foo.bar").isSome = true ∧
    ((findById docWithoutDd "foo.bar").map (fun pn => pn.2.name)) = some "dt" ∧
    get_symbol_markdown docWithoutDd ⟨"foo.bar", "function", "u"⟩ = none ∧
    get_symbol_markdown docWithoutDd ⟨"foo.bar", "term", "u"⟩ = none := by
  refine ⟨by decide, by decide, by decide, by decide⟩

/-! ## Lemmas about signature collection -/

theorem collectSignatures_length_le (l : List Node) :
    (collectSignatures l).length ≤ l.length := by
  induction l with
  | nil => simp [collectSignatures]
  | cons e rest ih =>
    simp only [collectSignatures]
    split
    · exact ih.trans (Nat.le_succ _)
    · simpa using Nat.succ_le_succ ih

theorem collectSignatures_ne_empty (l : List Node) :
    ∀ s ∈ collectSignatures l, s ≠ "" := by
  induction l with
  | nil => simp [collectSignatures]
  | cons e rest ih =>
    simp only [collectSignatures]
    split
    · exact ih
    · next hne =>
      intro s hs
      rcases List.mem_cons.mp hs with h | h
      · subst h
        simpa using (by simpa using hne : ¬ subSignatureSymbols e.getText = "")
      · exact ih s h

/-- The document of the spec's worked signature example: one preceding `dt`
sibling, the anchor `dt`, and two following `dt` siblings before a `dd`. -/
def signatureExampleDoc : Node :=
  .tag "root" none [] [.tag "dl" none [] [
    .tag "dt" none [] [.text "sigP"],
    .tag "dt" (some "foo.bar") [] [.text "sigA"],
    .tag "dt" none [] [.text "sigF1"],
    .tag "dt" none [] [.text "sigF2"],
    .tag "dd" none [] [.text "description"]]]

/-- C3: signature extraction returns at most 3 strings, none of them empty
after cleaning; and on the spec's example shape (one preceding `dt`, the
anchor, two following `dt`s before a `dd`) the kept entries are the last 3 of
(preceding, anchor, following₁, following₂): the anchor and the two following
signatures, in that order. -/
theorem signature_extraction_bounds_and_order (root : Node) (p : List Nat) :
    (_get_signatures root p).length ≤ 3 ∧
    (∀ s ∈ _get_signatures root p, s ≠ "") ∧
    _get_signatures signatureExampleDoc [0, 1] = ["sigA", "sigF1", "sigF2"] := by
  refine ⟨?_, ?_, by decide⟩
  · unfold _get_signatures
    refine (collectSignatures_length_le _).trans ?_
    rw [List.length_drop]
    omega
  · intro s hs
    exact collectSignatures_ne_empty _ s hs

/-! ## The dual-budget truncator -/

/-- The cumulative "visual" length of a node list: the sum of each node's
source-text length, the quantity the truncation loop holds under its visual
budget. -/
def sumVisual (l : List Node) : Nat := (l.map nodeSourceLength).sum

/-- The cumulative converted length of a node list under a converter: the
quantity the loop holds under the raw ceiling. -/
def sumConverted (conv : MarkdownConverter) (l : List Node) : Nat :=
  (l.map (fun e => (convertNode conv e).length)).sum

theorem sumVisual_nil : sumVisual [] = 0 := rfl

theorem sumVisual_cons (e : Node) (l : List Node) :
    sumVisual (e :: l) = nodeSourceLength e + sumVisual l := by
  simp [sumVisual]

theorem sumConverted_nil (conv : MarkdownConverter) : sumConverted conv [] = 0 := rfl

theorem sumConverted_cons (conv : MarkdownConverter) (e : Node) (l : List Node) :
    sumConverted conv (e :: l) = (convertNode conv e).length + sumConverted conv l := by
  simp [sumConverted]

/-- Full characterisation of the truncation loop, generalised over the running
counters: there is a kept-prefix length `k` such that the loop emits exactly
the conversions of the first `k` nodes, the flag records whether it broke
early, every kept node passed both strict budget checks, and a node at
position `k` (when one exists) violated one of them. -/
theorem truncateLoop_spec (conv : MarkdownConverter) (max_length : Nat) :
    ∀ (elements : List Node) (v r : Nat),
    ∃ k, k ≤ elements.length ∧
      (truncateLoop conv max_length elements v r).1 =
        (elements.take k).map (convertNode conv) ∧
      ((truncateLoop conv max_length elements v r).2 = true ↔ k < elements.length) ∧
      (∀ j, j < k →
        v + sumVisual (elements.take (j + 1)) < max_length ∧
        r + sumConverted conv (elements.take (j + 1)) < _MAX_DESCRIPTION_LENGTH) ∧
      (∀ e, elements[k]? = some e →
        max_length ≤ v + sumVisual (elements.take k) + nodeSourceLength e ∨
        _MAX_DESCRIPTION_LENGTH ≤
          r + sumConverted conv (elements.take k) + (convertNode conv e).length) := by
  intro elements
  induction elements with
  | nil =>
    intro v r
    exact ⟨0, by simp [truncateLoop]⟩
  | cons e rest ih =>
    intro v r
    by_cases hv : v + nodeSourceLength e < max_length
    · by_cases hr : r + (convertNode conv e).length < _MAX_DESCRIPTION_LENGTH
      · obtain ⟨k, hk_le, hk1, hk2, hk3, hk4⟩ :=
          ih (v + nodeSourceLength e) (r + (convertNode conv e).length)
        refine ⟨k + 1, by simpa using Nat.succ_le_succ hk_le, ?_, ?_, ?_, ?_⟩
        · simp only [truncateLoop, if_pos hv, if_pos hr, List.take_succ_cons, List.map_cons]
          exact congrArg _ hk1
        · simp only [truncateLoop, if_pos hv, if_pos hr]
          simpa using hk2
        · intro j hj
          cases j with
          | zero =>
            simp only [List.take_succ_cons, List.take_zero, sumVisual_cons, sumVisual_nil,
              sumConverted_cons, sumConverted_nil]
            omega
          | succ j' =>
            have := hk3 j' (by omega)
            simp only [List.take_succ_cons, sumVisual_cons, sumConverted_cons]
            omega
        · intro x hx
          simp only [List.getElem?_cons_succ] at hx
          have := hk4 x hx
          simp only [List.take_succ_cons, sumVisual_cons, sumConverted_cons]
          omega
      · refine ⟨0, Nat.zero_le _, ?_, ?_, by omega, ?_⟩
        · simp [truncateLoop, if_pos hv, if_neg hr]
        · simp [truncateLoop, if_pos hv, if_neg hr]
        · intro x hx
          simp only [List.getElem?_cons_zero, Option.some.injEq] at hx
          subst hx
          right
          simp only [List.take_zero, sumConverted_nil]
          omega
    · refine ⟨0, Nat.zero_le _, ?_, ?_, by omega, ?_⟩
      · simp [truncateLoop, if_neg hv]
      · simp [truncateLoop, if_neg hv]
      · intro x hx
        simp only [List.getElem?_cons_zero, Option.some.injEq] at hx
        subst hx
        left
        simp only [List.take_zero, sumVisual_nil]
        omega

/-- C5: the truncator keeps exactly a prefix of the node sequence; every kept
node kept both running budgets strictly below their limits, the first
unkept node (when the sequence was cut) would have pushed the visual length to
`max_length` or the converted length to the 1800 raw ceiling, and whenever the
cut happened the joined string is stripped of trailing `!?:;.`-plus-whitespace
characters and `"..."` is appended. -/
theorem truncator_budget_characterisation (conv : MarkdownConverter) (max_length : Nat)
    (elements : List Node) :
    ∃ k, k ≤ elements.length ∧
      (truncateLoop conv max_length elements 0 0).1 =
        (elements.take k).map (convertNode conv) ∧
      (∀ j, j < k →
        sumVisual (elements.take (j + 1)) < max_length ∧
        sumConverted conv (elements.take (j + 1)) < _MAX_DESCRIPTION_LENGTH) ∧
      (∀ e, elements[k]? = some e →
        max_length ≤ sumVisual (elements.take k) + nodeSourceLength e ∨
        _MAX_DESCRIPTION_LENGTH ≤
          sumConverted conv (elements.take k) + (convertNode conv e).length) ∧
      _get_truncated_description elements conv max_length =
        (if k < elements.length then
          rstripChars (String.join ((elements.take k).map (convertNode conv)))
            _TRUNCATE_STRIP_CHARACTERS ++ "..."
        else String.join ((elements.take k).map (convertNode conv))) := by
  obtain ⟨k, hk_le, hk1, hk2, hk3, hk4⟩ := truncateLoop_spec conv max_length elements 0 0
  refine ⟨k, hk_le, hk1, ?_, ?_, ?_⟩
  · intro j hj
    have := hk3 j hj
    omega
  · intro e he
    have := hk4 e he
    omega
  · have hdesc : _get_truncated_description elements conv max_length =
        (if (truncateLoop conv max_length elements 0 0).2 then
          rstripChars (String.join (truncateLoop conv max_length elements 0 0).1)
            _TRUNCATE_STRIP_CHARACTERS ++ "..."
        else String.join (truncateLoop conv max_length elements 0 0).1) := rfl
    rw [hdesc, hk1]
    by_cases hlt : k < elements.length
    · rw [if_pos hlt, if_pos (hk2.mpr hlt)]
    · rw [if_neg hlt]
      have : (truncateLoop conv max_length elements 0 0).2 = false := by
        cases h2 : (truncateLoop conv max_length elements 0 0).2
        · rfl
        · exact absurd (hk2.mp h2) hlt
      rw [if_neg (by simp [this])]

/-- When both totals stay strictly under their budgets from the running
counters onward, the loop keeps everything and never sets the flag. -/
theorem truncateLoop_all_kept (conv : MarkdownConverter) (max_length : Nat) :
    ∀ (elements : List Node) (v r : Nat),
    v + sumVisual elements < max_length →
    r + sumConverted conv elements < _MAX_DESCRIPTION_LENGTH →
    truncateLoop conv max_length elements v r = (elements.map (convertNode conv), false) := by
  intro elements
  induction elements with
  | nil => intro v r _ _; rfl
  | cons e rest ih =>
    intro v r hv hr
    rw [sumVisual_cons] at hv
    rw [sumConverted_cons] at hr
    have hv1 : v + nodeSourceLength e < max_length := by omega
    have hr1 : r + (convertNode conv e).length < _MAX_DESCRIPTION_LENGTH := by omega
    have hrest := ih (v + nodeSourceLength e) (r + (convertNode conv e).length)
      (by omega) (by omega)
    simp only [truncateLoop, if_pos hv1, if_pos hr1, hrest, List.map_cons]

/-- C6: on a node sequence whose total visual length stays strictly under the
visual budget and whose total converted length stays strictly under the 1800
raw ceiling, the truncator returns exactly the concatenation of the converted
nodes: no ellipsis, no stripping. -/
theorem truncation_of_short_content_is_noop (conv : MarkdownConverter) (max_length : Nat)
    (elements : List Node)
    (hv : sumVisual elements < max_length)
    (hr : sumConverted conv elements < _MAX_DESCRIPTION_LENGTH) :
    _get_truncated_description elements conv max_length =
      String.join (elements.map (convertNode conv)) := by
  have h := truncateLoop_all_kept conv max_length elements 0 0 (by omega) (by omega)
  have hdesc : _get_truncated_description elements conv max_length =
      (if (truncateLoop conv max_length elements 0 0).2 then
        rstripChars (String.join (truncateLoop conv max_length elements 0 0).1)
          _TRUNCATE_STRIP_CHARACTERS ++ "..."
      else String.join (truncateLoop conv max_length elements 0 0).1) := rfl
  rw [hdesc, h]
  simp

/-- Concrete instance for C6: a short two-node description is returned
verbatim, with no `"..."` appended. -/
theorem truncation_of_short_content_is_noop_witness :
    sumVisual [Node.text "short ", Node.tag "p" none [] [Node.text "desc."]] < 750 ∧
    sumConverted (DocMarkdownConverter "•" "u")
      [Node.text "short ", Node.tag "p" none [] [Node.text "desc."]] < _MAX_DESCRIPTION_LENGTH ∧
    _get_truncated_description [Node.text "short ", Node.tag "p" none [] [Node.text "desc."]]
        (DocMarkdownConverter "•" "u") 750 =
      String.join ([Node.text "short ", Node.tag "p" none [] [Node.text "desc."]].map
        (convertNode (DocMarkdownConverter "•" "u"))) :=
  ⟨by decide, by decide,
    truncation_of_short_content_is_noop _ _ _ (by decide) (by decide)⟩

/-! ## Whitespace collapsing in fenced signature content (C10) -/

/-- Adjacent characters are not both whitespace: the relation whose chain over
a string says the string has no run of consecutive whitespace. -/
def noRunRel (a b : Char) : Prop := isPySpace a = false ∨ isPySpace b = false

instance : DecidableRel noRunRel :=
  fun a b => inferInstanceAs (Decidable (isPySpace a = false ∨ isPySpace b = false))

theorem reverse_ne_nil_of_not_isEmpty {α : Type} {cur : List α}
    (h : ¬ cur.isEmpty = true) : cur.reverse ≠ [] := by
  cases cur with
  | nil => simp at h
  | cons a t => simp

theorem splitWsAux_words (l : List Char) :
    ∀ cur, (∀ c ∈ cur, isPySpace c = false) →
    ∀ w ∈ splitWsAux cur l, w ≠ [] ∧ ∀ c ∈ w, isPySpace c = false := by
  induction l with
  | nil =>
    intro cur hcur w hw
    simp only [splitWsAux] at hw
    split at hw
    · simp at hw
    · next h =>
      simp only [List.mem_singleton] at hw
      subst hw
      exact ⟨reverse_ne_nil_of_not_isEmpty h, fun c hc => hcur c (List.mem_reverse.mp hc)⟩
  | cons c cs ih =>
    intro cur hcur w hw
    simp only [splitWsAux] at hw
    by_cases hc : isPySpace c = true
    · rw [if_pos hc] at hw
      split at hw
      · exact ih [] (by simp) w hw
      · next h =>
        rcases List.mem_cons.mp hw with h1 | h1
        · subst h1
          exact ⟨reverse_ne_nil_of_not_isEmpty h, fun x hx => hcur x (List.mem_reverse.mp hx)⟩
        · exact ih [] (by simp) w h1
    · rw [if_neg hc] at hw
      refine ih (c :: cur) ?_ w hw
      intro x hx
      rcases List.mem_cons.mp hx with h1 | h1
      · subst h1; simpa using hc
      · exact hcur x h1

/-- Every word `s.split()` produces is non-empty and whitespace-free. -/
theorem pySplitWords_ok (s : String) :
    ∀ w ∈ pySplitWords s, w.data ≠ [] ∧ ∀ c ∈ w.data, isPySpace c = false := by
  intro w hw
  simp only [pySplitWords, List.mem_map] at hw
  obtain ⟨l, hl, rfl⟩ := hw
  exact splitWsAux_words s.data [] (by simp) l hl

theorem chain'_of_nonspace (l : List Char) (h : ∀ c ∈ l, isPySpace c = false) :
    List.Chain' noRunRel l := by
  induction l with
  | nil => exact List.chain'_nil
  | cons a l ih =>
    rw [List.chain'_cons']
    refine ⟨fun b _ => Or.inl (h a (by simp)), ih fun c hc => h c (List.mem_cons_of_mem _ hc)⟩

theorem joinWithSpaces_cons_cons (w r : String) (rs : List String) :
    joinWithSpaces (w :: r :: rs) = w ++ " " ++ joinWithSpaces (r :: rs) := rfl

/-- Under whitespace-free non-empty words, the space-joined string has no
whitespace run, its first and last characters are not whitespace, it is
non-empty when the word list is, and each of its characters is a single space
or a character of one of the words. -/
theorem joinWithSpaces_props (ws : List String)
    (h : ∀ w ∈ ws, w.data ≠ [] ∧ ∀ c ∈ w.data, isPySpace c = false) :
    List.Chain' noRunRel (joinWithSpaces ws).data ∧
    (∀ c ∈ (joinWithSpaces ws).data.getLast?, isPySpace c = false) ∧
    (∀ c ∈ (joinWithSpaces ws).data.head?, isPySpace c = false) ∧
    ((joinWithSpaces ws).data = [] → ws = []) ∧
    (∀ c ∈ (joinWithSpaces ws).data, c = ' ' ∨ ∃ w ∈ ws, c ∈ w.data) := by
  induction ws with
  | nil => simp [joinWithSpaces]
  | cons w rest ih =>
    have hw := h w (by simp)
    cases rest with
    | nil =>
      rw [show joinWithSpaces [w] = w from rfl]
      refine ⟨chain'_of_nonspace _ hw.2, ?_, ?_, by simp [hw.1], ?_⟩
      · intro c hc
        exact hw.2 c (List.mem_of_mem_getLast? hc)
      · intro c hc
        exact hw.2 c (List.mem_of_mem_head? hc)
      · intro c hc
        exact Or.inr ⟨w, by simp, hc⟩
    | cons r rs =>
      obtain ⟨ihc, ihlast, ihhead, ihne, ihmem⟩ :=
        ih fun x hx => h x (List.mem_cons_of_mem _ hx)
      have hrne : (joinWithSpaces (r :: rs)).data ≠ [] := by
        intro hnil
        exact absurd (ihne hnil) (by simp)
      have hdata : (joinWithSpaces (w :: r :: rs)).data =
          w.data ++ ' ' :: (joinWithSpaces (r :: rs)).data := by
        rw [joinWithSpaces_cons_cons]
        simp [String.data_append]
      rw [hdata]
      refine ⟨?_, ?_, ?_, ?_, ?_⟩
      · refine List.Chain'.append (chain'_of_nonspace _ hw.2) ?_ ?_
        · rw [List.chain'_cons']
          exact ⟨fun b hb => Or.inr (ihhead b hb), ihc⟩
        · intro x hx y hy
          exact Or.inl (hw.2 x (List.mem_of_mem_getLast? hx))
      · rw [List.append_cons, List.getLast?_append_of_ne_nil _ hrne]
        exact ihlast
      · obtain ⟨c0, l0, hw0⟩ := List.exists_cons_of_ne_nil hw.1
        rw [hw0]
        intro c hc
        simp only [List.cons_append, List.head?_cons, Option.mem_def, Option.some.injEq] at hc
        rw [← hc]
        exact hw.2 c0 (by simp [hw0])
      · simp
      · intro c hc
        rcases List.mem_append.mp hc with h1 | h1
        · exact Or.inr ⟨w, by simp, h1⟩
        · rcases List.mem_cons.mp h1 with h2 | h2
          · exact Or.inl h2
          · rcases ihmem c h2 with h3 | ⟨x, hx1, hx2⟩
            · exact Or.inl h3
            · exact Or.inr ⟨x, List.mem_cons_of_mem _ hx1, hx2⟩

theorem fitWordsAux_subset (budget : Nat) :
    ∀ (ws : List String) (cur : Nat) (w : String), w ∈ fitWordsAux budget cur ws → w ∈ ws := by
  intro ws
  induction ws with
  | nil => intro cur w hw; simp [fitWordsAux] at hw
  | cons x rest ih =>
    intro cur w hw
    simp only [fitWordsAux] at hw
    split at hw
    · split at hw
      · rcases List.mem_cons.mp hw with h1 | h1
        · exact h1 ▸ List.mem_cons_self _ _
        · exact List.mem_cons_of_mem _ (ih _ w h1)
      · simp at hw
    · split at hw
      · rcases List.mem_cons.mp hw with h1 | h1
        · exact h1 ▸ List.mem_cons_self _ _
        · exact List.mem_cons_of_mem _ (ih _ w h1)
      · simp at hw

/-- The default placeholder characters of `textwrap.shorten` contain no
whitespace run. -/
theorem chain'_placeholder : List.Chain' noRunRel [' ', '[', '.', '.', '.', ']'] := by
  refine List.chain'_cons'.mpr ⟨?_, chain'_of_nonspace _ (by decide)⟩
  intro y hy
  simp only [List.head?_cons, Option.mem_def, Option.some.injEq] at hy
  subst hy
  right
  decide

/-- The shortened signature never contains a newline and never contains two
adjacent whitespace characters, whatever the width: the whitespace collapse
happens on both branches of `textwrap.shorten`. -/
theorem textwrap_shorten_props (s : String) (width : Nat) :
    (∀ c ∈ (textwrap_shorten s width).data, c ≠ '\n') ∧
    List.Chain' noRunRel (textwrap_shorten s width).data := by
  have hok := pySplitWords_ok s
  unfold textwrap_shorten
  split
  · obtain ⟨hc, _, _, _, hmem⟩ := joinWithSpaces_props _ hok
    refine ⟨?_, hc⟩
    intro c hcin
    rcases hmem c hcin with h | ⟨w, hw1, hw2⟩
    · subst h; decide
    · intro hnl
      have hns := (hok w hw1).2 c hw2
      rw [hnl] at hns
      exact absurd hns (by decide)
  · split
    · exact ⟨by decide, chain'_of_nonspace _ (by decide)⟩
    · have hkeptok : ∀ w ∈ fitWordsAux (width - " [...]".length) 0 (pySplitWords s),
          w.data ≠ [] ∧ ∀ c ∈ w.data, isPySpace c = false := by
        intro w hw
        exact hok w (fitWordsAux_subset _ _ _ w hw)
      obtain ⟨hc, hlast, _, _, hmem⟩ := joinWithSpaces_props _ hkeptok
      have hdata : (joinWithSpaces (fitWordsAux (width - " [...]".length) 0 (pySplitWords s))
          ++ " [...]").data =
          (joinWithSpaces (fitWordsAux (width - " [...]".length) 0 (pySplitWords s))).data
            ++ [' ', '[', '.', '.', '.', ']'] := by
        rw [String.data_append]
      constructor
      · rw [hdata]
        intro c hcin
        rcases List.mem_append.mp hcin with h1 | h1
        · rcases hmem c h1 with h | ⟨w, hw1, hw2⟩
          · subst h; decide
          · intro hnl
            have hns := (hkeptok w hw1).2 c hw2
            rw [hnl] at hns
            exact absurd hns (by decide)
        · fin_cases h1 <;> decide
      · rw [hdata]
        refine List.Chain'.append hc chain'_placeholder ?_
        intro x hx y _
        exact Or.inl (hlast x hx)

/-- C10: the content placed inside each ```` ```py ```` fenced block of
`_parse_into_markdown` is `textwrap_shorten signature 500`, and that string
contains no newline and no run of consecutive whitespace characters, also when
the signature is already under the 500-character limit. -/
theorem fenced_signature_content_single_line (signature url : String)
    (description : List Node) :
    (∀ c ∈ (textwrap_shorten signature 500).data, c ≠ '\n') ∧
    List.Chain' noRunRel (textwrap_shorten signature 500).data ∧
    _parse_into_markdown (some [signature]) description url =
      "```py\n" ++ textwrap_shorten signature 500 ++ "```" ++ "\n" ++
        stripWhitespaceAfterNewlines
          (_get_truncated_description description (DocMarkdownConverter "•" url) 750) := by
  obtain ⟨h1, h2⟩ := textwrap_shorten_props signature 500
  refine ⟨h1, h2, ?_⟩
  show String.join ["```py\n" ++ textwrap_shorten signature 500 ++ "```"] ++ "\n" ++ _ = _
  have hjoin : String.join ["```py\n" ++ textwrap_shorten signature 500 ++ "```"] =
      "```py\n" ++ textwrap_shorten signature 500 ++ "```" := by
    show "" ++ ("```py\n" ++ textwrap_shorten signature 500 ++ "```") = _
    exact String.empty_append _
  rw [hjoin]

/-! ## Region selection for the module/doc/label groups (C8) -/

/-- C8: for a descriptor whose group is `module`, `doc` or `label`, the
assembler uses the general-description strategy regardless of the anchor's tag
name; the selected region is exactly the longest prefix of the effective
start's forward siblings on which `_match_end_tag` never hits, so it never
contains the first sibling that is a `table` or carries a section-boundary
class, nor anything after it. -/
theorem module_group_uses_general_region (soup : Node) (symbol_data : DocItem)
    (ph : List Nat × Node)
    (hgroup : symbol_data.group = "module" ∨ symbol_data.group = "doc" ∨
      symbol_data.group = "label")
    (hfind : findById soup symbol_data.symbol_id = some ph) :
    get_symbol_markdown soup symbol_data =
      some (removePilcrows (_parse_into_markdown none (_get_general_description soup ph.1)
        symbol_data.url)) ∧
    _get_general_description soup ph.1 =
      (strainNodes true (nextSiblingNodes soup (generalStartPath soup ph.1))).takeWhile
        (fun n => !(n.isTag && tagFilterHit (.pred _match_end_tag) n)) ∧
    (∀ n ∈ _get_general_description soup ph.1, n.isTag = true →
      _match_end_tag n = false) := by
  have hregion : _get_general_description soup ph.1 =
      (strainNodes true (nextSiblingNodes soup (generalStartPath soup ph.1))).takeWhile
        (fun n => !(n.isTag && tagFilterHit (.pred _match_end_tag) n)) := by
    show _find_elements_until_tag (.pred _match_end_tag)
        (takeLimit none (strainNodes true
          (nextSiblingNodes soup (generalStartPath soup ph.1)))) = _
    exact find_elements_eq_takeWhile _ _
  refine ⟨?_, hregion, ?_⟩
  · unfold get_symbol_markdown
    rw [hfind]
    rcases hgroup with h | h | h <;> simp [h]
  · intro n hn htag
    rw [hregion] at hn
    have := List.mem_takeWhile_imp hn
    simpa [htag] using this

/-- Concrete document for C8: a `div` anchor of group `module` whose header
carries a headerlink, followed by text, a paragraph, a table and a trailing
paragraph. -/
def moduleExampleDoc : Node :=
  .tag "root" none [] [
    .tag "div" (some "mod") [] [
      .tag "h1" none [] [.text "title", .tag "a" none ["headerlink"] []],
      .text "intro ",
      .tag "p" none [] [.text "para"],
      .tag "table" none [] [.text "tbl"],
      .tag "p" none [] [.text "after"]]]

/-- The anchor node of `moduleExampleDoc`. -/
def moduleAnchorNode : Node :=
  .tag "div" (some "mod") [] [
    .tag "h1" none [] [.text "title", .tag "a" none ["headerlink"] []],
    .text "intro ",
    .tag "p" none [] [.text "para"],
    .tag "table" none [] [.text "tbl"],
    .tag "p" none [] [.text "after"]]

/-- Concrete instance for C8 at `moduleExampleDoc`. -/
theorem module_group_uses_general_region_witness :
    get_symbol_markdown moduleExampleDoc ⟨"mod", "module", "u"⟩ =
      some (removePilcrows (_parse_into_markdown none
        (_get_general_description moduleExampleDoc [0]) "u")) ∧
    _get_general_description moduleExampleDoc [0] =
      (strainNodes true (nextSiblingNodes moduleExampleDoc
        (generalStartPath moduleExampleDoc [0]))).takeWhile
        (fun n => !(n.isTag && tagFilterHit (.pred _match_end_tag) n)) ∧
    (∀ n ∈ _get_general_description moduleExampleDoc [0], n.isTag = true →
      _match_end_tag n = false) :=
  module_group_uses_general_region moduleExampleDoc ⟨"mod", "module", "u"⟩
    ([0], moduleAnchorNode) (Or.inl rfl) rfl

/-! ## Length bounds of the truncated description (C1) -/

theorem string_foldl_append (L : List String) :
    ∀ a : String, L.foldl (· ++ ·) a = a ++ L.foldl (· ++ ·) "" := by
  induction L with
  | nil => intro a; simp [List.foldl]
  | cons x L ih =>
    intro a
    simp only [List.foldl]
    rw [ih (a ++ x), ih ("" ++ x), String.empty_append, String.append_assoc]

theorem string_join_cons (s : String) (L : List String) :
    String.join (s :: L) = s ++ String.join L := by
  show (s :: L).foldl (· ++ ·) "" = _
  simp only [List.foldl]
  rw [string_foldl_append L ("" ++ s), String.empty_append]
  rfl

theorem string_join_length (L : List String) :
    (String.join L).length = (L.map String.length).sum := by
  induction L with
  | nil => rfl
  | cons s rest ih =>
    rw [string_join_cons, String.length_append, ih]
    simp

theorem stripWsAux_length_le (l : List Char) :
    ∀ dropping a b, (stripWsAfterNewlinesAux dropping a b l).length ≤ l.length := by
  induction l with
  | nil => intro _ _ _; simp [stripWsAfterNewlinesAux]
  | cons c cs ih =>
    intro dropping a b
    simp only [stripWsAfterNewlinesAux]
    split
    · exact (ih _ _ _).trans (Nat.le_succ _)
    · simpa using Nat.succ_le_succ (ih _ _ _)

theorem stripWhitespaceAfterNewlines_length_le (s : String) :
    (stripWhitespaceAfterNewlines s).length ≤ s.length :=
  stripWsAux_length_le s.data false 'A' 'A'

theorem rstripChars_length_le (s : String) (cs : List Char) :
    (rstripChars s cs).length ≤ s.length := by
  show (s.data.reverse.dropWhile _).reverse.length ≤ s.data.length
  rw [List.length_reverse]
  exact ((List.dropWhile_sublist _).length_le).trans (by rw [List.length_reverse])

/-- The joined converted chunks the truncation loop keeps always total
strictly under the 1800 raw ceiling. -/
theorem truncateLoop_join_lt (elements : List Node) (conv : MarkdownConverter)
    (max_length : Nat) :
    (String.join (truncateLoop conv max_length elements 0 0).1).length <
      _MAX_DESCRIPTION_LENGTH := by
  obtain ⟨k, _, hk1, _, hk3, _⟩ := truncateLoop_spec conv max_length elements 0 0
  rw [hk1, string_join_length]
  have hsum : ((elements.take k).map (convertNode conv) |>.map String.length).sum =
      sumConverted conv (elements.take k) := by
    simp [sumConverted, List.map_map]
    rfl
  rw [hsum]
  cases k with
  | zero => simp [sumConverted, _MAX_DESCRIPTION_LENGTH]
  | succ k' =>
    have := hk3 k' (Nat.lt_succ_self k')
    omega

/-- The truncated description is at most 1802 characters: under 1800 before
the ellipsis, plus at most the three appended dots. -/
theorem truncated_description_le (elements : List Node) (conv : MarkdownConverter)
    (max_length : Nat) :
    (_get_truncated_description elements conv max_length).length ≤
      _MAX_DESCRIPTION_LENGTH + 2 := by
  have hjoin := truncateLoop_join_lt elements conv max_length
  have hdesc : _get_truncated_description elements conv max_length =
      (if (truncateLoop conv max_length elements 0 0).2 then
        rstripChars (String.join (truncateLoop conv max_length elements 0 0).1)
          _TRUNCATE_STRIP_CHARACTERS ++ "..."
      else String.join (truncateLoop conv max_length elements 0 0).1) := rfl
  rw [hdesc]
  split
  · rw [String.length_append]
    have := rstripChars_length_le (String.join (truncateLoop conv max_length elements 0 0).1)
      _TRUNCATE_STRIP_CHARACTERS
    have h3 : ("..." : String).length = 3 := rfl
    omega
  · omega

/-- C1 (amended): the 1800 raw ceiling of the source bounds only the
description component.  The joined converted description stays strictly under
1800; with the appended ellipsis the truncated description is at most 1802;
and a signature-free assembly (`signatures = None`) is at most 1803 raw
characters.  No such bound covers the signature blocks, so the claim's bound
on the whole assembled output fails (see the counterexample). -/
theorem raw_ceiling_bounds_description_component (elements : List Node)
    (conv : MarkdownConverter) (max_length : Nat) :
    (String.join (truncateLoop conv max_length elements 0 0).1).length <
      _MAX_DESCRIPTION_LENGTH ∧
    (_get_truncated_description elements conv max_length).length ≤
      _MAX_DESCRIPTION_LENGTH + 2 ∧
    (∀ url : String,
      (_parse_into_markdown none elements url).length ≤ _MAX_DESCRIPTION_LENGTH + 3) := by
  refine ⟨truncateLoop_join_lt elements conv max_length,
    truncated_description_le elements conv max_length, ?_⟩
  intro url
  have heq : _parse_into_markdown none elements url =
      "" ++ "\n" ++ stripWhitespaceAfterNewlines
        (_get_truncated_description elements (DocMarkdownConverter "•" url) 750) := rfl
  rw [heq, String.empty_append, String.length_append]
  have h1 := stripWhitespaceAfterNewlines_length_le
    (_get_truncated_description elements (DocMarkdownConverter "•" url) 750)
  have h2 := truncated_description_le elements (DocMarkdownConverter "•" url) 750
  have hn : ("\n" : String).length = 1 := rfl
  omega

/-- A 500-character signature line. -/
def longSig : String := ⟨List.replicate 500 'a'⟩

/-- A 749-character description text. -/
def longDesc : String := ⟨List.replicate 749 'b'⟩

/-- A document with three full-length signatures and a 749-character
description for the anchor `big`. -/
def overLongDoc : Node :=
  .tag "root" none [] [.tag "dl" none [] [
    .tag "dt" (some "big") [] [.text longSig],
    .tag "dt" none [] [.text longSig],
    .tag "dt" none [] [.text longSig],
    .tag "dd" none [] [.text longDesc]]]

theorem longSig_length : longSig.length = 500 := by
  show (List.replicate 500 'a').length = 500
  rw [List.length_replicate]

theorem longDesc_length : longDesc.length = 749 := by
  show (List.replicate 749 'b').length = 749
  rw [List.length_replicate]

theorem removePilcrows_append (a b : String) :
    removePilcrows (a ++ b) = removePilcrows a ++ removePilcrows b := by
  apply String.ext
  show ((a ++ b).data.filter _) = (removePilcrows a ++ removePilcrows b).data
  rw [String.data_append, List.filter_append]
  rfl

/-- The fenced block built for one full-length signature. -/
def sigBlock : String := "```py\n" ++ longSig ++ "```"

theorem sigBlock_length : sigBlock.length = 509 := by
  unfold sigBlock
  rw [String.length_append, String.length_append, longSig_length]
  rfl

set_option maxRecDepth 4000 in
/-- C1 counterexample: on `overLongDoc` the assembled output of
`get_symbol_markdown` is a string of 2277 raw characters — three 509-character
fenced signature blocks, the separating newline and a 749-character
description — exceeding the claimed 1800 raw ceiling. -/
theorem assembled_output_exceeds_raw_ceiling :
    (get_symbol_markdown overLongDoc ⟨"big", "function", "u"⟩).isSome = true ∧
    ((get_symbol_markdown overLongDoc ⟨"big", "function", "u"⟩).getD "").length = 2277 ∧
    1800 < ((get_symbol_markdown overLongDoc ⟨"big", "function", "u"⟩).getD "").length := by
  have h1 : get_symbol_markdown overLongDoc ⟨"big", "function", "u"⟩ =
      some (removePilcrows (_parse_into_markdown (some [longSig, longSig, longSig])
        [.text longDesc] "u")) := rfl
  have hparse : _parse_into_markdown (some [longSig, longSig, longSig]) [.text longDesc] "u" =
      String.join [sigBlock, sigBlock, sigBlock] ++ "\n" ++ longDesc := rfl
  have hjoin : String.join [sigBlock, sigBlock, sigBlock] =
      sigBlock ++ (sigBlock ++ (sigBlock ++ "")) := by
    rw [string_join_cons, string_join_cons, string_join_cons]
    rfl
  have hrp_sig : removePilcrows sigBlock = sigBlock := rfl
  have hrp_desc : removePilcrows longDesc = longDesc := rfl
  have hrp_nl : removePilcrows "\n" = "\n" := rfl
  have hrp_e : removePilcrows "" = "" := rfl
  have hout : removePilcrows (_parse_into_markdown (some [longSig, longSig, longSig])
      [.text longDesc] "u") =
      (sigBlock ++ (sigBlock ++ (sigBlock ++ ""))) ++ "\n" ++ longDesc := by
    rw [hparse, hjoin, removePilcrows_append, removePilcrows_append, removePilcrows_append,
      removePilcrows_append, removePilcrows_append, hrp_sig, hrp_desc, hrp_nl, hrp_e]
  have hlen : ((sigBlock ++ (sigBlock ++ (sigBlock ++ ""))) ++ "\n" ++ longDesc).length =
      2277 := by
    rw [String.length_append, String.length_append, String.length_append,
      String.length_append, String.length_append, sigBlock_length, longDesc_length]
    rfl
  rw [h1, hout]
  refine ⟨rfl, hlen, ?_⟩
  show 1800 <
    ((some ((sigBlock ++ (sigBlock ++ (sigBlock ++ ""))) ++ "\n" ++ longDesc)).getD "").length
  rw [Option.getD_some, hlen]
  omega

/-! ## Fenced blocks and the no-signature groups (C4) -/

mutual

/-- No text anywhere in the subtree contains a backtick character. -/
def Node.noBacktick : Node → Bool
  | .text s => s.data.all (fun c => c != '\x60')
  | .tag _ _ _ cs => nodesNoBacktick cs

/-- `Node.noBacktick` over a list of nodes. -/
def nodesNoBacktick : List Node → Bool
  | [] => true
  | c :: cs => c.noBacktick && nodesNoBacktick cs

end

/-- No character of the string is a backtick. -/
def strNoBt (s : String) : Prop := ∀ c ∈ s.data, c ≠ '\x60'

/-- Whether `needle` is a leading run of `haystack`. -/
def startsWithChars : List Char → List Char → Bool
  | _, [] => true
  | [], _ :: _ => false
  | a :: as, b :: bs => a == b && startsWithChars as bs

/-- Whether `needle` occurs contiguously anywhere in the character list. -/
def containsChars : List Char → List Char → Bool
  | [], needle => needle.isEmpty
  | a :: as, needle => startsWithChars (a :: as) needle || containsChars as needle

/-- Substring occurrence test for strings ("`sub in s`"). -/
def strContains (s sub : String) : Bool := containsChars s.data sub.data

theorem not_contains_fence (l : List Char) (h : ∀ c ∈ l, c ≠ '\x60') :
    containsChars l ['\x60', '\x60', '\x60'] = false := by
  induction l with
  | nil => rfl
  | cons a as ih =>
    simp only [containsChars, Bool.or_eq_false_iff]
    constructor
    · have ha : a ≠ '\x60' := h a (by simp)
      simp only [startsWithChars, Bool.and_eq_false_iff]
      left
      simpa using ha
    · exact ih fun c hc => h c (List.mem_cons_of_mem _ hc)

theorem strContains_fence_false (s : String) (h : strNoBt s) :
    strContains s "```" = false := by
  show containsChars s.data ("```" : String).data = false
  rw [show ("```" : String).data = ['\x60', '\x60', '\x60'] from rfl]
  exact not_contains_fence s.data h

theorem nodesNoBacktick_mem (cs : List Node) (h : nodesNoBacktick cs = true) :
    ∀ c ∈ cs, c.noBacktick = true := by
  induction cs with
  | nil => simp
  | cons x xs ih =>
    have hh : x.noBacktick = true ∧ nodesNoBacktick xs = true := by
      simpa [nodesNoBacktick, Bool.and_eq_true] using h
    intro c hc
    rcases List.mem_cons.mp hc with h1 | h1
    · subst h1; exact hh.1
    · exact ih hh.2 c h1

theorem childNodes_noBacktick (parent : Node) (h : parent.noBacktick = true) :
    ∀ c ∈ parent.childNodes, c.noBacktick = true := by
  cases parent with
  | text s => simp [Node.childNodes]
  | tag nm i cl cs => exact nodesNoBacktick_mem cs (by simpa [Node.noBacktick] using h)

mutual

theorem preorder_all_noBacktick : ∀ (p : List Nat) (n : Node), n.noBacktick = true →
    ∀ pn ∈ preorder p n, pn.2.noBacktick = true
  | p, .text s, h, pn, hpn => by
    simp only [preorder, List.mem_singleton] at hpn
    subst hpn
    exact h
  | p, .tag nm i cl cs, h, pn, hpn => by
    simp only [preorder] at hpn
    rcases List.mem_cons.mp hpn with h1 | h1
    · subst h1; exact h
    · exact preorderList_all_noBacktick p 0 cs (by simpa [Node.noBacktick] using h) pn h1

theorem preorderList_all_noBacktick : ∀ (p : List Nat) (i : Nat) (cs : List Node),
    nodesNoBacktick cs = true → ∀ pn ∈ preorderList p i cs, pn.2.noBacktick = true
  | _, _, [], _, pn, hpn => by simp [preorderList] at hpn
  | p, i, c :: cs, h, pn, hpn => by
    simp only [preorderList, List.mem_append] at hpn
    have hh : c.noBacktick = true ∧ nodesNoBacktick cs = true := by
      simpa [nodesNoBacktick, Bool.and_eq_true] using h
    rcases hpn with h1 | h1
    · exact preorder_all_noBacktick _ c hh.1 pn h1
    · exact preorderList_all_noBacktick p (i + 1) cs hh.2 pn h1

end

theorem docOrder_all_noBacktick (soup : Node) (h : soup.noBacktick = true) :
    ∀ pn ∈ docOrder soup, pn.2.noBacktick = true :=
  preorder_all_noBacktick [] soup h

theorem getNodeAt_noBacktick (soup : Node) (h : soup.noBacktick = true) (p : List Nat) :
    ((getNodeAt soup p).getD (.text "")).noBacktick = true := by
  unfold getNodeAt
  cases hf : (docOrder soup).find? (fun pn => pn.1 == p) with
  | none => rfl
  | some pn =>
    have hmem := List.mem_of_find?_eq_some hf
    simpa using docOrder_all_noBacktick soup h pn hmem

theorem nextSiblingNodes_noBacktick (soup : Node) (h : soup.noBacktick = true) (p : List Nat) :
    ∀ n ∈ nextSiblingNodes soup p, n.noBacktick = true := by
  unfold nextSiblingNodes
  cases hl : p.getLast? with
  | none => intro n hn; simp at hn
  | some i =>
    cases hg : getNodeAt soup p.dropLast with
    | none => intro n hn; simp at hn
    | some parent =>
      intro n hn
      have hpar : parent.noBacktick = true := by
        have := getNodeAt_noBacktick soup h p.dropLast
        rw [hg] at this
        simpa using this
      exact childNodes_noBacktick parent hpar n (List.mem_of_mem_drop hn)

theorem strNoBt_append (a b : String) (ha : strNoBt a) (hb : strNoBt b) :
    strNoBt (a ++ b) := by
  intro c hc
  rw [String.data_append] at hc
  rcases List.mem_append.mp hc with h | h
  · exact ha c h
  · exact hb c h

theorem strNoBt_join (L : List String) (h : ∀ x ∈ L, strNoBt x) :
    strNoBt (String.join L) := by
  induction L with
  | nil => intro c hc; simp [String.join] at hc
  | cons s rest ih =>
    rw [string_join_cons]
    exact strNoBt_append _ _ (h s (by simp))
      (ih fun x hx => h x (List.mem_cons_of_mem _ hx))

mutual

theorem getText_noBt : ∀ (n : Node), n.noBacktick = true → strNoBt n.getText
  | .text s, h => by
    intro c hc
    have hall : s.data.all (fun x => x != '\x60') = true := h
    have := List.all_eq_true.mp hall c hc
    simpa using this
  | .tag nm i cl cs, h => nodesText_noBt cs (by simpa [Node.noBacktick] using h)

theorem nodesText_noBt : ∀ (cs : List Node), nodesNoBacktick cs = true → strNoBt (nodesText cs)
  | [], _ => by intro c hc; simp [nodesText] at hc
  | c :: cs, h => by
    have hh : c.noBacktick = true ∧ nodesNoBacktick cs = true := by
      simpa [nodesNoBacktick, Bool.and_eq_true] using h
    exact strNoBt_append _ _ (getText_noBt c hh.1) (nodesText_noBt cs hh.2)

end

theorem convertNode_noBt (bullets url : String) (n : Node) (h : n.noBacktick = true) :
    strNoBt (convertNode (DocMarkdownConverter bullets url) n) := by
  cases n with
  | text s => exact getText_noBt (.text s) h
  | tag nm i cl cs => exact getText_noBt (.tag nm i cl cs) h

theorem strNoBt_rstrip (s : String) (cs : List Char) (h : strNoBt s) :
    strNoBt (rstripChars s cs) := by
  intro c hc
  have hc1 : c ∈ s.data.reverse.dropWhile (fun x => cs.contains x) := List.mem_reverse.mp hc
  have hc2 : c ∈ s.data.reverse := (List.dropWhile_sublist _).subset hc1
  exact h c (List.mem_reverse.mp hc2)

theorem strNoBt_ellipsis : strNoBt "..." := by
  intro c hc
  fin_cases hc <;> decide

theorem stripWsAux_subset (l : List Char) :
    ∀ dropping a b c, c ∈ stripWsAfterNewlinesAux dropping a b l → c ∈ l := by
  induction l with
  | nil => intro _ _ _ c hc; simp [stripWsAfterNewlinesAux] at hc
  | cons x xs ih =>
    intro dropping a b c hc
    simp only [stripWsAfterNewlinesAux] at hc
    split at hc
    · exact List.mem_cons_of_mem _ (ih _ _ _ c hc)
    · rcases List.mem_cons.mp hc with h1 | h1
      · exact h1 ▸ List.mem_cons_self _ _
      · exact List.mem_cons_of_mem _ (ih _ _ _ c h1)

theorem strNoBt_stripWs (s : String) (h : strNoBt s) :
    strNoBt (stripWhitespaceAfterNewlines s) := by
  intro c hc
  exact h c (stripWsAux_subset s.data false 'A' 'A' c hc)

theorem strNoBt_removePilcrows (s : String) (h : strNoBt s) :
    strNoBt (removePilcrows s) := by
  intro c hc
  exact h c (List.mem_of_mem_filter hc)

theorem truncdesc_noBt (elements : List Node) (bullets url : String) (max_length : Nat)
    (h : ∀ n ∈ elements, n.noBacktick = true) :
    strNoBt (_get_truncated_description elements (DocMarkdownConverter bullets url)
      max_length) := by
  obtain ⟨k, _, hk1, _, _, _⟩ :=
    truncateLoop_spec (DocMarkdownConverter bullets url) max_length elements 0 0
  have hjoin : strNoBt (String.join
      (truncateLoop (DocMarkdownConverter bullets url) max_length elements 0 0).1) := by
    rw [hk1]
    apply strNoBt_join
    intro x hx
    rcases List.mem_map.mp hx with ⟨n, hn, rfl⟩
    exact convertNode_noBt bullets url n (h n (List.mem_of_mem_take hn))
  have hdesc : _get_truncated_description elements (DocMarkdownConverter bullets url)
      max_length =
      (if (truncateLoop (DocMarkdownConverter bullets url) max_length elements 0 0).2 then
        rstripChars (String.join
          (truncateLoop (DocMarkdownConverter bullets url) max_length elements 0 0).1)
          _TRUNCATE_STRIP_CHARACTERS ++ "..."
      else String.join
        (truncateLoop (DocMarkdownConverter bullets url) max_length elements 0 0).1) := rfl
  rw [hdesc]
  split
  · exact strNoBt_append _ _ (strNoBt_rstrip _ _ hjoin) strNoBt_ellipsis
  · exact hjoin

theorem parse_none_noBt (description : List Node) (url : String)
    (h : ∀ n ∈ description, n.noBacktick = true) :
    strNoBt (_parse_into_markdown none description url) := by
  have heq : _parse_into_markdown none description url =
      "" ++ "\n" ++ stripWhitespaceAfterNewlines
        (_get_truncated_description description (DocMarkdownConverter "•" url) 750) := rfl
  rw [heq]
  refine strNoBt_append _ _ (strNoBt_append _ _ ?_ ?_) ?_
  · intro c hc; simp at hc
  · intro c hc
    have : c = '\n' := by simpa using hc
    subst this
    decide
  · exact strNoBt_stripWs _ (truncdesc_noBt description "•" url 750 h)

theorem general_description_noBacktick (soup : Node) (h : soup.noBacktick = true)
    (p : List Nat) :
    ∀ n ∈ _get_general_description soup p, n.noBacktick = true := by
  intro n hn
  rw [show _get_general_description soup p =
      _find_elements_until_tag (.pred _match_end_tag) (takeLimit none (strainNodes true
        (nextSiblingNodes soup (generalStartPath soup p)))) from rfl,
    find_elements_eq_takeWhile] at hn
  exact nextSiblingNodes_noBacktick soup h _ n ((List.takeWhile_sublist _).subset hn)

theorem dd_description_noBacktick (soup : Node) (h : soup.noBacktick = true) (p : List Nat)
    (desc : List Node) (hdd : _get_dd_description soup p = some desc) :
    ∀ n ∈ desc, n.noBacktick = true := by
  unfold _get_dd_description at hdd
  cases hfn : findNext soup p (fun n => n.name == "dd") with
  | none => rw [hfn] at hdd; simp at hdd
  | some dp =>
    rw [hfn] at hdd
    simp only [Option.some.injEq] at hdd
    subst hdd
    intro n hn
    rw [show _find_next_children_until_tag soup dp.1 (.names ["dt", "dl"]) true none =
        _find_elements_until_tag (.names ["dt", "dl"]) (takeLimit none (strainNodes true
          (Node.childNodes ((getNodeAt soup dp.1).getD (.text ""))))) from rfl,
      find_elements_eq_takeWhile] at hn
    exact childNodes_noBacktick _ (getNodeAt_noBacktick soup h dp.1) n
      ((List.takeWhile_sublist _).subset hn)

/-- C4 (amended): the no-signature set the code actually tests is
`_NO_SIGNATURE_GROUPS = {attribute, envvar, setting, tempaltefilter,
templatetag, term}`.  For a descriptor whose group is in that set, whatever
branch the assembler takes passes `signatures = None`, so on a document whose
text carries no backtick the assembled output contains no fenced code block. -/
theorem no_signature_groups_emit_no_fence (soup : Node) (symbol_data : DocItem) (s : String)
    (hgroup : symbol_data.group ∈ _NO_SIGNATURE_GROUPS)
    (hnb : soup.noBacktick = true)
    (hout : get_symbol_markdown soup symbol_data = some s) :
    strContains s "```" = false := by
  have hmem : symbol_data.group = "attribute" ∨ symbol_data.group = "envvar" ∨
      symbol_data.group = "setting" ∨ symbol_data.group = "tempaltefilter" ∨
      symbol_data.group = "templatetag" ∨ symbol_data.group = "term" := by
    simpa [_NO_SIGNATURE_GROUPS] using hgroup
  have hgroups : (["module", "doc", "label"].contains symbol_data.group) = false ∧
      (_NO_SIGNATURE_GROUPS.contains symbol_data.group) = true := by
    rcases hmem with h | h | h | h | h | h <;> rw [h] <;> exact ⟨rfl, rfl⟩
  unfold get_symbol_markdown at hout
  cases hfind : findById soup symbol_data.symbol_id with
  | none =>
    rw [hfind] at hout
    simp only [Option.some.injEq] at hout
    subst hout
    decide
  | some ph =>
    rw [hfind] at hout
    simp only [hgroups.1, Bool.false_eq_true, if_false] at hout
    by_cases hdt : (ph.2.name != "dt") = true
    · rw [if_pos hdt] at hout
      simp only [Option.some.injEq] at hout
      subst hout
      exact strContains_fence_false _ (strNoBt_removePilcrows _
        (parse_none_noBt _ _ (general_description_noBacktick soup hnb ph.1)))
    · rw [if_neg hdt, if_pos hgroups.2] at hout
      cases hdd : _get_dd_description soup ph.1 with
      | none => rw [hdd] at hout; simp at hout
      | some desc =>
        rw [hdd] at hout
        simp only [Option.some.injEq] at hout
        subst hout
        exact strContains_fence_false _ (strNoBt_removePilcrows _
          (parse_none_noBt _ _ (dd_description_noBacktick soup hnb ph.1 desc hdd)))

/-- A document whose anchor `tf` is a `dt` with a signature line and a
following `dd` description. -/
def templateFilterDoc : Node :=
  .tag "root" none [] [.tag "dl" none [] [
    .tag "dt" (some "tf") [] [.text "myfilter"],
    .tag "dd" none [] [.text "doc"]]]

/-- C4 counterexample: the spec's group names `template-filter` and
`template-tag` are not members of the code's `_NO_SIGNATURE_GROUPS` (which
holds `tempaltefilter` and `templatetag` instead), so for descriptors with
those groups the assembler extracts signatures and the output does contain a
```` ```py ```` fenced block. -/
theorem hyphenated_template_groups_get_fences :
    ("template-filter" ∉ _NO_SIGNATURE_GROUPS) ∧
    ("template-tag" ∉ _NO_SIGNATURE_GROUPS) ∧
    strContains ((get_symbol_markdown templateFilterDoc
      ⟨"tf", "template-filter", "u"⟩).getD "") "```py" = true ∧
    strContains ((get_symbol_markdown templateFilterDoc
      ⟨"tf", "template-tag", "u"⟩).getD "") "```py" = true := by
  exact ⟨by decide, by decide, by decide, by decide⟩

/-- A `term`-group document with no backtick anywhere. -/
def termDoc : Node :=
  .tag "root" none [] [.tag "dl" none [] [
    .tag "dt" (some "t1") [] [.text "tm"],
    .tag "dd" none [] [.text "meaning"]]]

/-- Concrete instance for C4 at `termDoc`: group `term` produces `"\nmeaning"`
and no fence. -/
theorem no_signature_groups_emit_no_fence_witness :
    ("term" ∈ _NO_SIGNATURE_GROUPS) ∧
    Node.noBacktick termDoc = true ∧
    get_symbol_markdown termDoc ⟨"t1", "term", "u"⟩ = some "\nmeaning" ∧
    strContains "\nmeaning" "```" = false :=
  ⟨by decide, by decide, by decide,
    no_signature_groups_emit_no_fence termDoc ⟨"t1", "term", "u"⟩ "\nmeaning"
      (by decide) (by decide) (by decide)⟩
